import Mathlib

/-
  Verification development for the dreamfs distributed file-metadata indexer.

  The Go sources under pkg/fileprocessor, pkg/storage, pkg/network and
  pkg/metadata are shallowly embedded as executable Lean definitions:
  byte sequences become lists of naturals, Go strings become lists of
  characters (byte slicing in the sources only occurs at ASCII offsets),
  machine integers become Int/Nat, and the external BLAKE3 and UUIDv5
  primitives are abstracted as function parameters (the properties checked
  here concern which bytes are hashed and which strings are keyed, never
  the internals of those external libraries).
-/

namespace DreamFS

/-- Go strings are modelled as lists of characters; the sources index and
slice only at separator boundaries, where byte and rune offsets agree. -/
abbrev GoStr := List Char

/-- Shorthand turning a Lean string literal into the character-list model. -/
def gs (s : String) : GoStr := s.data

-- ------------------------
-- strings.SplitN (as used with separator `\` and n = 3)
-- ------------------------

/-- Split off everything before the first occurrence of the separator:
returns none when the separator does not occur, otherwise the part
before it and the part after it. -/
def splitFirst (sep : Char) : GoStr → Option (GoStr × GoStr)
  | [] => none
  | c :: cs =>
    if c = sep then some ([], cs)
    else
      match splitFirst sep cs with
      | none => none
      | some (p, r) => some (c :: p, r)

/-- Model of Go strings.SplitN with a one-character separator: at most n
substrings, the last one holding the unsplit remainder. -/
def goSplitN (sep : Char) : Nat → GoStr → List GoStr
  | 0, _ => []
  | 1, s => [s]
  | n + 2, s =>
    match splitFirst sep s with
    | none => [s]
    | some (p, r) => p :: goSplitN sep (n + 1) r

-- ------------------------
-- Canonicalize Paths for Physical Uniqueness
-- (pkg/fileprocessor/fileprocessor.go, CanonicalizePath)
-- ------------------------

/-- One row of the gopsutil mount table used by CanonicalizePath. -/
structure PartitionStat where
  device : GoStr
  mountpoint : GoStr
  fstype : GoStr
deriving DecidableEq, Repr

/-- The operating system reported by runtime.GOOS, as far as
CanonicalizePath distinguishes it. -/
inductive GOOS where
  | windows
  | other
deriving DecidableEq, Repr

/-- Network filesystem types recognized by CanonicalizePath. -/
def networkFSTypes : List GoStr := [gs "nfs", gs "nfs4", gs "cifs", gs "smbfs", gs "afp"]

/-- ASCII lowercasing of a Go string (strings.ToLower on fstype values). -/
def goToLower (s : GoStr) : GoStr := s.map Char.toLower

/-- One iteration of the mountpoint-selection loop of CanonicalizePath:
keep an entry whose mountpoint is a string prefix of the path and is
strictly longer than the best length seen so far. -/
def bestMountStep (absPath : GoStr) (acc : Option PartitionStat × Nat)
    (p : PartitionStat) : Option PartitionStat × Nat :=
  if p.mountpoint.isPrefixOf absPath ∧ p.mountpoint.length > acc.2 then
    (some p, p.mountpoint.length)
  else acc

/-- The mountpoint-selection loop of CanonicalizePath: scan the table
keeping the longest matching mountpoint (the best length starts at
zero, so empty mountpoints are never selected). -/
def bestMount (table : List PartitionStat) (absPath : GoStr) : Option PartitionStat × Nat :=
  table.foldl (bestMountStep absPath) (none, 0)

/-- Embedding of CanonicalizePath.  On Windows, a path starting with the
UNC marker is split (SplitN with limit 3) into server, share and rest and
reassembled by Sprintf as server, a colon, share, and rest, where rest
is a slash followed by the third split component when present (the
component keeps any backslashes it contains).  Otherwise the longest
mountpoint prefix is looked up in the table and, when its filesystem
type is a network type, the device, a colon and the slash-prefixed
remainder are returned; in every other case the path comes back
unchanged.  A mount-table probe error also returns the path unchanged
(both here and at the call site in ProcessFile). -/
def CanonicalizePath (goos : GOOS) (table : List PartitionStat) (absPath : GoStr) : GoStr :=
  match goos with
  | .windows =>
    if (gs "\\\\").isPrefixOf absPath then
      let ps := goSplitN '\\' 3 (absPath.drop 2)
      if ps.length ≥ 2 then
        let server := ps.getD 0 []
        let share := ps.getD 1 []
        let rest := if ps.length = 3 then '/' :: ps.getD 2 [] else []
        server ++ ':' :: (share ++ rest)
      else absPath
    else absPath
  | .other =>
    match bestMount table absPath with
    | (some best, bestLen) =>
      if bestLen > 0 ∧ goToLower best.fstype ∈ networkFSTypes then
        let relPath := absPath.drop best.mountpoint.length
        let relPath := if ('/' :: []).isPrefixOf relPath then relPath else '/' :: relPath
        best.device ++ ':' :: relPath
      else absPath
    | (none, _) => absPath

-- ------------------------
-- Fingerprinting (pkg/fileprocessor/fileprocessor.go, FingerprintFile)
-- ------------------------

/-- The sampling window constant fileSampleSize = 1 << 20. -/
def fileSampleSize : Nat := 1 <<< 20

/-- The byte sequence FingerprintFile feeds to blake3.Sum256, as a
function of the file contents: the whole file when its size is below
three windows, otherwise a window read from offset 0, a window read
after seeking to size/2, and a window read after seeking to
size - window. -/
def fingerprintData (content : List Nat) : List Nat :=
  let size := content.length
  if size < 3 * fileSampleSize then
    content
  else
    let head := content.take fileSampleSize
    let mid := (content.drop (size / 2)).take fileSampleSize
    let tail := (content.drop (size - fileSampleSize)).take fileSampleSize
    head ++ mid ++ tail

/-- Embedding of FingerprintFile for a file that opens, stats and reads
successfully, with the external blake3 hex digest abstracted as the
function parameter hash. -/
def FingerprintFile (hash : List Nat → String) (content : List Nat) : String :=
  hash (fingerprintData content)

/-- Spec-side slice notation: bytes [a, b) of a sequence. -/
def sliceB (a b : Nat) (l : List Nat) : List Nat := (l.drop a).take (b - a)

/-- Spec-side restatement of the sampling rule of claim C1: hash the
whole contents below 3W, otherwise bytes [0, W), bytes
[size/2, size/2 + W) and bytes [size - W, size) in this order. -/
def specSampleC1 (content : List Nat) : List Nat :=
  let size := content.length
  if size < 3 * fileSampleSize then
    content
  else
    sliceB 0 fileSampleSize content ++
      sliceB (size / 2) (size / 2 + fileSampleSize) content ++
      sliceB (size - fileSampleSize) size content

/-- Spec-side restatement of the boundary rule of claim C2 at size 3W:
the digest input would be B[0..W) then B[W..2W) then B[2W..3W). -/
def specSampleC2At3W (content : List Nat) : List Nat :=
  sliceB 0 fileSampleSize content ++
    sliceB fileSampleSize (2 * fileSampleSize) content ++
    sliceB (2 * fileSampleSize) (3 * fileSampleSize) content

/-- Concrete file contents used to separate the middle window the code
reads from the middle window claim C2 names: one window of 0-bytes,
one of 1-bytes, one of 2-bytes. -/
def boundaryBytes : List Nat :=
  List.replicate fileSampleSize 0 ++
    (List.replicate fileSampleSize 1 ++ List.replicate fileSampleSize 2)

-- ------------------------
-- Metadata records and their flat JSON coding (pkg/metadata)
-- ------------------------

/-- Go values in interface-typed JSON positions: json.Unmarshal
produces null, bool, float64, string, array and object values, while
MarshalJSON additionally places the record's int64 size field into the
object it builds. -/
inductive GoVal where
  | null
  | boolean (b : Bool)
  | int64 (n : Int)
  | float64 (q : ℚ)
  | str (s : String)
  | arr (elems : List GoVal)
  | obj (fields : List (String × GoVal))

/-- Round a natural number to the nearest multiple of m, ties to the
even multiple (the IEEE-754 default rounding applied to integers). -/
def roundToMultiple (m n : Nat) : Nat :=
  let q := n / m
  let r := n % m
  if 2 * r < m then q * m
  else if m < 2 * r then (q + 1) * m
  else if q % 2 = 0 then q * m else (q + 1) * m

/-- Bounded search for the float64 unit in the last place: the least e
with n < 2^(53+e); 64 steps cover every int64. -/
def ulpSearch : Nat → Nat → Nat → Nat
  | 0, e, _ => e
  | fuel + 1, e, n => if n < 2 ^ (53 + e) then e else ulpSearch fuel (e + 1) n

/-- The integer value of the float64 nearest to a natural number:
numbers whose ulp exponent is e are rounded to the nearest multiple of
2^e, ties to even; up to 2^53 this is the number itself. -/
def roundF64Nat (n : Nat) : Nat :=
  roundToMultiple (2 ^ ulpSearch 64 0 n) n

/-- The integer value of the float64 nearest to an integer (IEEE-754
rounding is sign-symmetric). -/
def roundF64 (i : Int) : Int :=
  if i < 0 then -(roundF64Nat i.natAbs : Int) else (roundF64Nat i.natAbs : Int)

/-- Go conversion int64(f) of a float64: truncation toward zero. -/
def goIntOfFloat (q : ℚ) : Int := Int.tdiv q.num q.den

mutual

/-- Marshal-then-parse on a Go value: printing to JSON text and
reading it back with json.Unmarshal turns every int64 into the nearest
float64 (json integers are printed exactly and parsed as float64) and
reproduces every other value (Go prints float64 in shortest
round-trip-exact notation, and strings, booleans and null verbatim). -/
def jsonRoundTrip : GoVal → GoVal
  | .null => .null
  | .boolean b => .boolean b
  | .int64 n => .float64 ((roundF64 n : Int) : ℚ)
  | .float64 q => .float64 q
  | .str s => .str s
  | .arr l => .arr (jsonRoundTripList l)
  | .obj l => .obj (jsonRoundTripFields l)

/-- Elementwise marshal-then-parse on a JSON array. -/
def jsonRoundTripList : List GoVal → List GoVal
  | [] => []
  | v :: vs => jsonRoundTrip v :: jsonRoundTripList vs

/-- Valuewise marshal-then-parse on the members of a JSON object. -/
def jsonRoundTripFields : List (String × GoVal) → List (String × GoVal)
  | [] => []
  | (k, v) :: kvs => (k, jsonRoundTrip v) :: jsonRoundTripFields kvs

end

/-- A Go value already in the image of json.Unmarshal: it contains no
int64 anywhere, so marshalling and parsing it reproduces it. -/
inductive DecodedForm : GoVal → Prop where
  | null : DecodedForm .null
  | boolean (b : Bool) : DecodedForm (.boolean b)
  | float64 (q : ℚ) : DecodedForm (.float64 q)
  | str (s : String) : DecodedForm (.str s)
  | arr (l : List GoVal) : (∀ v ∈ l, DecodedForm v) → DecodedForm (.arr l)
  | obj (l : List (String × GoVal)) : (∀ kv ∈ l, DecodedForm kv.2) → DecodedForm (.obj l)

/-- The metadata record (pkg/metadata FileMetadata): seven typed
fields plus the open Extra map, modelled as an association list in a
fixed iteration order. -/
structure FileMetadata where
  ID : String
  IDString : String
  HostID : String
  FilePath : String
  Size : Int
  ModTime : String
  BLAKE3 : String
  Extra : List (String × GoVal)

/-- The seven known JSON member names of a record. -/
def knownKeys : List String :=
  ["_id", "idString", "hostID", "filePath", "size", "modTime", "blake3"]

/-- The seven known members as MarshalJSON places them into its map
(the size field enters as an int64, everything else as a string). -/
def known7 (fm : FileMetadata) : List (String × GoVal) :=
  [("_id", .str fm.ID), ("idString", .str fm.IDString), ("hostID", .str fm.HostID),
    ("filePath", .str fm.FilePath), ("size", .int64 fm.Size),
    ("modTime", .str fm.ModTime), ("blake3", .str fm.BLAKE3)]

/-- The object MarshalJSON builds: the seven known members, then each
Extra entry added only when its key is not already present in the map
(Go map insertion order is unspecified; the model keeps Extra order). -/
def marshalFields (fm : FileMetadata) : List (String × GoVal) :=
  fm.Extra.foldl
    (fun m kv => if (m.map Prod.fst).contains kv.1 then m else m ++ [kv])
    (known7 fm)

/-- Insertion into a Go map modelled as an association list: an
existing key has its value replaced, a new key is appended. -/
def upsert {β : Type} (m : List (String × β)) (k : String) (v : β) :
    List (String × β) :=
  if (m.map Prod.fst).contains k then
    m.map (fun e => if e.1 = k then (e.1, v) else e)
  else m ++ [(k, v)]

/-- The map json.Unmarshal builds from the members of a JSON object:
later duplicate keys overwrite earlier ones. -/
def tmpOf (fields : List (String × GoVal)) : List (String × GoVal) :=
  fields.foldl (fun m kv => upsert m kv.1 kv.2) []

/-- Embedding of FileMetadata.UnmarshalJSON on the member list of a
JSON object: each known field is taken from the map when present with
the asserted dynamic type (strings for the six text fields, float64
converted by int64() for size), and every unknown member is collected
into Extra. -/
def unmarshalFileMetadata (fields : List (String × GoVal)) : FileMetadata :=
  let tmp := tmpOf fields
  { ID := match tmp.lookup "_id" with | some (.str s) => s | _ => ""
    IDString := match tmp.lookup "idString" with | some (.str s) => s | _ => ""
    HostID := match tmp.lookup "hostID" with | some (.str s) => s | _ => ""
    FilePath := match tmp.lookup "filePath" with | some (.str s) => s | _ => ""
    Size := match tmp.lookup "size" with | some (.float64 q) => goIntOfFloat q | _ => 0
    ModTime := match tmp.lookup "modTime" with | some (.str s) => s | _ => ""
    BLAKE3 := match tmp.lookup "blake3" with | some (.str s) => s | _ => ""
    Extra := tmp.filter (fun kv => !(knownKeys.contains kv.1)) }

/-- Unmarshalling an arbitrary parsed JSON document into a record:
only an object succeeds (json.Unmarshal into the temporary map fails
on every other document shape). -/
def decodeFileMetadata : GoVal → Option FileMetadata
  | .obj fields => some (unmarshalFileMetadata fields)
  | _ => none

/-- Unmarshalling a parsed JSON document into a record slice: only an
array of objects succeeds. -/
def decodeMetaList : GoVal → Option (List FileMetadata)
  | .arr elems => elems.mapM decodeFileMetadata
  | _ => none

/-- The decode-after-encode composition of claim C5: MarshalJSON
builds the flat object, the object travels through JSON text (value
round trip on every member), and UnmarshalJSON rebuilds a record. -/
def decodeAfterEncode (r : FileMetadata) : FileMetadata :=
  unmarshalFileMetadata (jsonRoundTripFields (marshalFields r))

-- ------------------------
-- Local store and swarm delegate (pkg/storage, pkg/network)
-- ------------------------

/-- The metadata bucket of the bolt store: record id maps to record,
a put overwrites the value under an existing id. -/
def storePut (store : List (String × FileMetadata)) (meta : FileMetadata) :
    List (String × FileMetadata) :=
  upsert store meta.ID meta

/-- Lookup in the metadata bucket. -/
def storeLookup (store : List (String × FileMetadata)) (k : String) :
    Option FileMetadata :=
  store.lookup k

/-- Embedding of SwarmDelegate.NotifyMsg: decode one record from the
incremental gossip payload and put it; a decode failure leaves the
store untouched.  The receiving node's own host identifier is passed
in to record that the handler never consults it. -/
def NotifyMsg (selfHostID : String) (msg : GoVal)
    (store : List (String × FileMetadata)) : List (String × FileMetadata) :=
  match decodeFileMetadata msg with
  | none => store
  | some meta => storePut store meta

/-- Embedding of SwarmDelegate.MergeRemoteState: decode an array of
records from the anti-entropy payload and put each in order; a decode
failure of the payload leaves the store untouched. -/
def MergeRemoteState (selfHostID : String) (buf : GoVal)
    (store : List (String × FileMetadata)) : List (String × FileMetadata) :=
  match decodeMetaList buf with
  | none => store
  | some metas => metas.foldl storePut store

-- ------------------------
-- CacheWriter (pkg/storage): channel, worker batch, flush loop
-- ------------------------

/-- State of a CacheWriter over an arbitrary payload type: the bounded
channel buffer, the worker's in-memory batch, the records flushed to
the store, the records accepted by Write, whether the quit channel has
been closed and whether the worker goroutine has returned. -/
structure CWState (α : Type) where
  chanBuf : List α
  batch : List α
  flushed : List α
  accepted : List α
  quitClosed : Bool
  workerDone : Bool
deriving DecidableEq, Repr

/-- The empty CacheWriter state right after NewCacheWriter. -/
def cwInit {α : Type} : CWState α := ⟨[], [], [], [], false, false⟩

/-- The possible atomic events of a CacheWriter run: a producer Write,
the worker receiving one channel element, the flush timer firing, an
explicit FlushNow arriving, Close closing the quit channel, and the
worker observing quit (Go select chooses among ready cases
nondeterministically; a run is an arbitrary interleaving). -/
inductive CWAct (α : Type) where
  | write (m : α)
  | recv
  | timer
  | flushNow
  | close
  | quitRecv
deriving DecidableEq, Repr

/-- One transition of the CacheWriter model.  A Write appends to the
channel when the bounded buffer (capacity 2 x batchSize) has room and
blocks (no effect) otherwise.  The worker events mirror the select
loop of CacheWriter.run: receiving moves one element into the batch
and flushes when the batch reaches batchSize; the timer and FlushNow
flush a nonempty batch; observing the closed quit channel flushes the
batch — only the batch, not the channel buffer — and stops. -/
def cwStep {α : Type} (batchSize : Nat) (s : CWState α) : CWAct α → CWState α
  | .write m =>
    if s.chanBuf.length < 2 * batchSize then
      { s with chanBuf := s.chanBuf ++ [m], accepted := s.accepted ++ [m] }
    else s
  | .recv =>
    if s.workerDone then s else
    match s.chanBuf with
    | [] => s
    | m :: rest =>
      if batchSize ≤ (s.batch ++ [m]).length then
        { s with chanBuf := rest, batch := [], flushed := s.flushed ++ (s.batch ++ [m]) }
      else { s with chanBuf := rest, batch := s.batch ++ [m] }
  | .timer =>
    if s.workerDone then s else
    if s.batch.isEmpty then s
    else { s with batch := [], flushed := s.flushed ++ s.batch }
  | .flushNow =>
    if s.workerDone then s else
    if s.batch.isEmpty then s
    else { s with batch := [], flushed := s.flushed ++ s.batch }
  | .close => { s with quitClosed := true }
  | .quitRecv =>
    if s.workerDone ∨ ¬ s.quitClosed then s else
    { s with batch := [], flushed := s.flushed ++ s.batch, workerDone := true }

/-- A CacheWriter run: fold the events over the initial state. -/
def cwRun {α : Type} (batchSize : Nat) (acts : List (CWAct α)) : CWState α :=
  acts.foldl (cwStep batchSize) cwInit

-- ------------------------
-- Directory walker (pkg/fileprocessor, ProcessAllDirectories)
-- ------------------------

/-- One filesystem entry seen by the walker, named by its path
relative to the root (a nonempty component list) and its directory
flag. -/
structure FSEntry where
  path : List String
  isDir : Bool
deriving DecidableEq, Repr

/-- Strict-ancestor test on relative paths: d lies strictly above p. -/
def properUnder (d p : List String) : Bool :=
  d.isPrefixOf p && decide (d.length < p.length)

/-- Phase A of ProcessAllDirectories: the first godirwalk walk skips
every directory other than the root itself (SkipNode), so it processes
exactly the non-directory entries that are direct children of the
root. -/
def phaseAFiles (fs : List FSEntry) : List (List String) :=
  (fs.filter fun e => !e.isDir && decide (e.path.length = 1)).map FSEntry.path

/-- The subdirectory collection of ProcessAllDirectories: the second
godirwalk walk descends recursively and collects every directory other
than the root, at any depth. -/
def subdirsOf (fs : List FSEntry) : List FSEntry :=
  fs.filter fun e => e.isDir && !e.path.isEmpty

/-- The per-subdirectory collection walk: godirwalk.Walk on one
directory collects every non-directory entry strictly beneath it,
recursively. -/
def filesUnder (fs : List FSEntry) (d : FSEntry) : List (List String) :=
  (fs.filter fun e => !e.isDir && properUnder d.path e.path).map FSEntry.path

/-- The full sequence of paths ProcessAllDirectories hands to
ProcessFile: phase A over the root, then for each collected
subdirectory in enumeration order all files beneath it. -/
def processedPaths (fs : List FSEntry) : List (List String) :=
  phaseAFiles fs ++ (subdirsOf fs).flatMap (filesUnder fs)

-- ------------------------
-- ProcessFile (pkg/fileprocessor)
-- ------------------------

/-- What os.Stat reports about a path, as far as ProcessFile uses it. -/
structure FileStat where
  size : Int
  modTime : String
  isDir : Bool
deriving DecidableEq, Repr

/-- The observable outcome of one ProcessFile call: its return value,
whether fingerprinting was attempted, the record put to the store, and
the record queued on the broadcast queue. -/
structure ProcResult where
  result : Except String String
  fingerprinted : Bool
  stored : Option FileMetadata
  broadcasted : Option FileMetadata

/-- Hex digits of a natural number, most significant first, by bounded
division (64 digits cover every int64 and far beyond). -/
def hexNatAux : Nat → Nat → List Char
  | 0, _ => []
  | fuel + 1, n => if n = 0 then [] else hexNatAux fuel (n / 16) ++ [Nat.digitChar (n % 16)]

/-- Lowercase hexadecimal rendering of a natural number, no prefix. -/
def hexNat (n : Nat) : String :=
  if n = 0 then "0" else String.mk (hexNatAux 64 n)

/-- strconv.FormatInt(i, 16): lowercase hex digits, a leading minus
sign for negative values, no prefix. -/
def formatIntHex (i : Int) : String :=
  if i < 0 then "-" ++ hexNat i.natAbs else hexNat i.natAbs

/-- The composite identity string of a record: host id, canonical
path, modification time, hexadecimal size and digest joined by literal
vertical bars. -/
def buildIdString (hostID canonicalPath modTime : String) (size : Int)
    (digest : String) : String :=
  hostID ++ "|" ++ canonicalPath ++ "|" ++ modTime ++ "|" ++ formatIntHex size ++
    "|" ++ digest

/-- Embedding of ProcessFile.  The explicit inputs stand for the
effects of the environment: the cancellation token, the stat result,
the filepath.Abs result, the readable file contents (none models an
open/read failure inside FingerprintFile), whether the process-wide
swarm delegate is attached, and the store flag.  The external blake3
digest and version-5 URL-namespace UUID primitives are abstracted as
the function parameters hash and uuid5url. -/
def ProcessFile (hash : List Nat → String) (uuid5url : String → String)
    (hostID : String) (goos : GOOS) (table : List PartitionStat)
    (cancelled : Bool) (stat : Option FileStat) (absPath : Option GoStr)
    (content : Option (List Nat)) (swarmAttached : Bool) (store : Bool) :
    ProcResult :=
  if cancelled then ⟨.error "context cancelled", false, none, none⟩ else
  match stat with
  | none => ⟨.error "failed to stat", false, none, none⟩
  | some info =>
    if info.isDir then ⟨.ok "", false, none, none⟩ else
    match absPath with
    | none => ⟨.error "failed to get absolute path", false, none, none⟩
    | some ap =>
      let canonicalPath := String.mk (CanonicalizePath goos table ap)
      match content with
      | none => ⟨.error "failed to fingerprint", true, none, none⟩
      | some bytes =>
        let fingerprint := FingerprintFile hash bytes
        if store then
          let modTime := info.modTime
          let idString := hostID ++ "|" ++ canonicalPath ++ "|" ++ modTime ++ "|" ++
            formatIntHex info.size ++ "|" ++ fingerprint
          let uuid := uuid5url idString
          let meta : FileMetadata :=
            ⟨uuid, idString, hostID, canonicalPath, info.size, modTime, fingerprint, []⟩
          ⟨.ok fingerprint, true, some meta,
            if swarmAttached then some meta else none⟩
        else ⟨.ok fingerprint, true, none, none⟩

/-- The sixteen lowercase hexadecimal digit characters. -/
def hexDigits : List Char := gs "0123456789abcdef"

end DreamFS

namespace DreamFS

/-- If the separator does not occur in the string, splitFirst finds
nothing. -/
theorem splitFirst_eq_none (c : Char) (s : GoStr) (h : c ∉ s) :
    splitFirst c s = none := by
  induction s with
  | nil => rfl
  | cons a as ih =>
    have ha : a ≠ c := fun he => h (he ▸ List.mem_cons_self a as)
    have has : c ∉ as := fun hm => h (List.mem_cons_of_mem a hm)
    simp [splitFirst, ha, ih has]

/-- Splitting a string assembled from a separator-free part, the
separator and a remainder recovers the two pieces. -/
theorem splitFirst_append (c : Char) (p r : GoStr) (h : c ∉ p) :
    splitFirst c (p ++ c :: r) = some (p, r) := by
  induction p with
  | nil => simp [splitFirst]
  | cons a as ih =>
    have ha : a ≠ c := fun he => h (he ▸ List.mem_cons_self a as)
    have has : c ∉ as := fun hm => h (List.mem_cons_of_mem a hm)
    simp [splitFirst, ha, ih has]

/-- The part before the first separator never contains the separator. -/
theorem splitFirst_not_mem (c : Char) (s p r : GoStr)
    (h : splitFirst c s = some (p, r)) : c ∉ p := by
  induction s generalizing p r with
  | nil => simp [splitFirst] at h
  | cons a as ih =>
    by_cases ha : a = c
    · simp [splitFirst, ha] at h
      intro hm
      rw [h.1] at hm
      exact absurd hm (List.not_mem_nil c)
    · simp only [splitFirst, if_neg ha] at h
      cases hs : splitFirst c as with
      | none => rw [hs] at h; simp at h
      | some pr =>
        rw [hs] at h
        simp at h
        intro hm
        rw [← h.1] at hm
        rcases List.mem_cons.mp hm with he | hm2
        · exact ha he.symm
        · exact ih pr.1 pr.2 (by rw [hs]) hm2

/-- C1: FingerprintFile hashes exactly the bytes the sampling rule
names: the whole contents when the size is strictly below 3W, and
otherwise bytes [0, W), bytes [size/2, size/2 + W) and bytes
[size - W, size) in this order, with W = 2^20.  The blake3 hex digest
itself is an external primitive and appears as the abstract function
parameter hash, so the statement holds for every choice of it. -/
theorem c1_fingerprint_sampling (hash : List Nat → String) (content : List Nat) :
    FingerprintFile hash content = hash (specSampleC1 content) := by
  unfold FingerprintFile fingerprintData specSampleC1 sliceB
  by_cases h : content.length < 3 * fileSampleSize
  · simp [h]
  · have h1 : content.length / 2 + fileSampleSize - content.length / 2 = fileSampleSize := by
      omega
    have h2 : content.length - (content.length - fileSampleSize) = fileSampleSize := by
      have : fileSampleSize ≤ content.length := by
        unfold fileSampleSize at h ⊢; omega
      omega
    simp [h, h1, h2]

/-- C2 counterexample: at size exactly 3W the code seeks the middle
window to offset size/2 = 3W/2, not to offset W, so there is a byte
sequence of length 3W on which the hashed bytes differ from
B[0..W) then B[W..2W) then B[2W..3W): the windows 0^W 1^W 2^W.
The two byte sequences are told apart by how many 2-bytes they hold. -/
theorem c2_counterexample :
    fingerprintData boundaryBytes ≠ specSampleC2At3W boundaryBytes := by
  have hpos : 0 < fileSampleSize := by decide
  have heven : fileSampleSize % 2 = 0 := by decide
  unfold fingerprintData specSampleC2At3W boundaryBytes sliceB
  generalize hgen : fileSampleSize = w at hpos heven ⊢
  intro h
  have hlen : (List.replicate w (0 : Nat) ++
      (List.replicate w 1 ++ List.replicate w 2)).length = 3 * w := by
    simp [List.length_append, List.length_replicate]; ring
  rw [hlen] at h
  rw [if_neg (by omega)] at h
  have e0 : w - 0 = w := by omega
  have e1 : 2 * w - w = w := by omega
  have e2 : 3 * w - 2 * w = w := by omega
  have e3 : 3 * w - w = 2 * w := by omega
  have e4 : 3 * w / 2 = w + w / 2 := by omega
  rw [e0, e1, e2, e3, e4, List.drop_zero] at h
  have hhalf : w - w / 2 = w / 2 := by omega
  have t1 : (List.replicate w (0 : Nat) ++
      (List.replicate w 1 ++ List.replicate w 2)).take w = List.replicate w 0 := by
    rw [List.take_append_eq_append_take]
    simp [List.take_replicate, List.length_replicate]
  have dmid : (List.replicate w (0 : Nat) ++
      (List.replicate w 1 ++ List.replicate w 2)).drop (w + w / 2) =
      List.replicate (w / 2) 1 ++ List.replicate w 2 := by
    rw [List.drop_append_eq_append_drop]
    have g0 : w + w / 2 - (List.replicate w (0 : Nat)).length = w / 2 := by
      simp only [List.length_replicate]; omega
    rw [g0, List.drop_append_eq_append_drop]
    have g1 : w / 2 - (List.replicate w (1 : Nat)).length = 0 := by
      simp only [List.length_replicate]; omega
    have g2 : w - (w + w / 2) = 0 := by omega
    rw [g1]
    simp [List.drop_replicate, hhalf, g2]
  have tmid : (List.replicate (w / 2) (1 : Nat) ++ List.replicate w 2).take w =
      List.replicate (w / 2) 1 ++ List.replicate (w / 2) 2 := by
    rw [List.take_append_eq_append_take]
    have g0 : min w (w / 2) = w / 2 := by omega
    have g1 : w - (List.replicate (w / 2) (1 : Nat)).length = w / 2 := by
      simp only [List.length_replicate]; omega
    have g2 : min (w / 2) w = w / 2 := by omega
    rw [g1]
    simp [List.take_replicate, g0, g2]
  have dtail : (List.replicate w (0 : Nat) ++
      (List.replicate w 1 ++ List.replicate w 2)).drop (2 * w) =
      List.replicate w 2 := by
    rw [List.drop_append_eq_append_drop]
    have g0 : 2 * w - (List.replicate w (0 : Nat)).length = w := by
      simp only [List.length_replicate]; omega
    rw [g0, List.drop_append_eq_append_drop]
    have g1 : w - (List.replicate w (1 : Nat)).length = 0 := by
      simp only [List.length_replicate]; omega
    have g2 : w - 2 * w = 0 := by omega
    rw [g1]
    simp [List.drop_replicate, g2]
  have dW : (List.replicate w (0 : Nat) ++
      (List.replicate w 1 ++ List.replicate w 2)).drop w =
      List.replicate w 1 ++ List.replicate w 2 := by
    rw [List.drop_append_eq_append_drop]
    simp [List.drop_replicate, List.length_replicate]
  have tW : (List.replicate w (1 : Nat) ++ List.replicate w 2).take w =
      List.replicate w 1 := by
    rw [List.take_append_eq_append_take]
    simp [List.take_replicate, List.length_replicate]
  rw [t1, dmid, tmid, dtail, dW, tW, List.take_of_length_le (by
    simp [List.length_replicate])] at h
  have hc := congrArg (List.count 2) h
  simp [List.count_append, List.count_replicate] at hc
  omega

/-- C2 amended: at size 3W - 1 the whole contents are hashed, and at
size exactly 3W the hashed bytes are B[0..W), then the middle window at
the code's offset size/2 = 3W/2 (not at offset W as the claim stated),
then B[2W..3W). -/
theorem c2_amended (B : List Nat) :
    (B.length = 3 * fileSampleSize - 1 → fingerprintData B = B) ∧
      (B.length = 3 * fileSampleSize →
        fingerprintData B =
          sliceB 0 fileSampleSize B ++
            sliceB (3 * fileSampleSize / 2) (3 * fileSampleSize / 2 + fileSampleSize) B ++
            sliceB (2 * fileSampleSize) (3 * fileSampleSize) B) := by
  constructor
  · intro hlen
    unfold fingerprintData
    rw [hlen, if_pos (by unfold fileSampleSize; omega)]
  · intro hlen
    unfold fingerprintData sliceB
    rw [hlen, if_neg (by omega)]
    have e1 : 3 * fileSampleSize / 2 + fileSampleSize - 3 * fileSampleSize / 2 =
        fileSampleSize := by omega
    have e2 : 3 * fileSampleSize - 2 * fileSampleSize = fileSampleSize := by omega
    have e3 : 3 * fileSampleSize - fileSampleSize = 2 * fileSampleSize := by omega
    simp [e1, e2, e3]

/-- C2 witness: both branches of the amended statement instantiated at
all-zero byte sequences of the two boundary lengths. -/
theorem c2_witness :
    fingerprintData (List.replicate (3 * fileSampleSize - 1) 0) =
        List.replicate (3 * fileSampleSize - 1) 0 ∧
      fingerprintData (List.replicate (3 * fileSampleSize) 0) =
        sliceB 0 fileSampleSize (List.replicate (3 * fileSampleSize) 0) ++
          sliceB (3 * fileSampleSize / 2) (3 * fileSampleSize / 2 + fileSampleSize)
            (List.replicate (3 * fileSampleSize) 0) ++
          sliceB (2 * fileSampleSize) (3 * fileSampleSize)
            (List.replicate (3 * fileSampleSize) 0) :=
  ⟨(c2_amended _).1 (by simp), (c2_amended _).2 (by simp)⟩

/-- C3 counterexample: on a Windows host the UNC input
\\server\share\dir\f.txt canonicalizes to server:share/dir\f.txt —
the code inserts no slash between the colon and the share and keeps the
backslash of the remainder — which differs from the claimed output
server:/share/dir/f.txt. -/
theorem c3_counterexample :
    CanonicalizePath .windows [] (gs "\\\\server\\share\\dir\\f.txt") =
        gs "server:share/dir\\f.txt" ∧
      CanonicalizePath .windows [] (gs "\\\\server\\share\\dir\\f.txt") ≠
        gs "server:/share/dir/f.txt" := by
  constructor
  · decide
  · decide

/-- C3 amended: on a Windows host, a UNC path whose server and share
components are backslash-free canonicalizes to server, a colon, share,
and — when a remainder is present — a slash followed by the remainder
taken verbatim (its backslashes are NOT normalized to forward slashes,
and no slash is inserted between the colon and the share); when the
remainder is absent the result is just server, colon, share.  In
particular \\server\share\dir\f.txt yields server:share/dir\f.txt. -/
theorem c3_amended (table : List PartitionStat) (server share restp : GoStr)
    (hs : '\\' ∉ server) (hh : '\\' ∉ share) :
    CanonicalizePath .windows table
        (gs "\\\\" ++ server ++ '\\' :: share ++ '\\' :: restp) =
        server ++ ':' :: (share ++ '/' :: restp) ∧
      CanonicalizePath .windows table (gs "\\\\" ++ server ++ '\\' :: share) =
        server ++ ':' :: share := by
  have hpre1 : (gs "\\\\").isPrefixOf
      (gs "\\\\" ++ server ++ '\\' :: share ++ '\\' :: restp) = true := by
    simp [gs, List.isPrefixOf]
  have hpre2 : (gs "\\\\").isPrefixOf (gs "\\\\" ++ server ++ '\\' :: share) = true := by
    simp [gs, List.isPrefixOf]
  have hdrop1 : (gs "\\\\" ++ server ++ '\\' :: share ++ '\\' :: restp).drop 2 =
      server ++ '\\' :: share ++ '\\' :: restp := by
    simp [gs]
  have hdrop2 : (gs "\\\\" ++ server ++ '\\' :: share).drop 2 =
      server ++ '\\' :: share := by
    simp [gs]
  constructor
  · have hsplit : goSplitN '\\' 3 (server ++ '\\' :: share ++ '\\' :: restp) =
        [server, share, restp] := by
      have h1 : splitFirst '\\' (server ++ '\\' :: (share ++ '\\' :: restp)) =
          some (server, share ++ '\\' :: restp) := splitFirst_append _ _ _ hs
      have h2 : splitFirst '\\' (share ++ '\\' :: restp) = some (share, restp) :=
        splitFirst_append _ _ _ hh
      simp [goSplitN, List.cons_append, h1, h2]
    unfold CanonicalizePath
    rw [if_pos hpre1, hdrop1, hsplit]
    simp
  · have hsplit : goSplitN '\\' 3 (server ++ '\\' :: share) = [server, share] := by
      have h1 : splitFirst '\\' (server ++ '\\' :: share) = some (server, share) :=
        splitFirst_append _ _ _ hs
      have h2 : splitFirst '\\' share = none := splitFirst_eq_none _ _ hh
      simp [goSplitN, h1, h2]
    unfold CanonicalizePath
    rw [if_pos hpre2, hdrop2, hsplit]
    simp

/-- C3 witness: the amended statement applied at the example input,
with the character-level side conditions checked by computation. -/
theorem c3_witness :
    CanonicalizePath .windows []
        (gs "\\\\" ++ gs "server" ++ '\\' :: gs "share" ++ '\\' :: gs "dir\\f.txt") =
        gs "server" ++ ':' :: (gs "share" ++ '/' :: gs "dir\\f.txt") ∧
      CanonicalizePath .windows [] (gs "\\\\" ++ gs "server" ++ '\\' :: gs "share") =
        gs "server" ++ ':' :: gs "share" :=
  c3_amended [] (gs "server") (gs "share") (gs "dir\\f.txt")
    (by decide) (by decide)

/-- A fold of bestMountStep over entries whose mountpoint is never a
prefix of the path leaves the accumulator untouched. -/
theorem foldl_bestMountStep_id (x : GoStr) (l : List PartitionStat)
    (h : ∀ p ∈ l, p.mountpoint.isPrefixOf x = false) :
    ∀ acc, l.foldl (bestMountStep x) acc = acc := by
  induction l with
  | nil => intro acc; rfl
  | cons q t ih =>
    intro acc
    have hq : q.mountpoint.isPrefixOf x = false := h q (List.mem_cons_self q t)
    have ht : ∀ p ∈ t, p.mountpoint.isPrefixOf x = false :=
      fun p hp => h p (List.mem_cons_of_mem q hp)
    have hstep : bestMountStep x acc q = acc := by
      simp [bestMountStep, hq]
    rw [List.foldl_cons, hstep]
    exact ih ht acc

/-- Whatever bestMountStep folds to, a selected entry comes from the
table, records its own mountpoint length, matches the path as a prefix
and has positive length. -/
theorem foldl_bestMountStep_cases (x : GoStr) (l : List PartitionStat) :
    ∀ acc best L, l.foldl (bestMountStep x) acc = (some best, L) →
      acc = (some best, L) ∨
        (best ∈ l ∧ L = best.mountpoint.length ∧
          best.mountpoint.isPrefixOf x = true ∧ 0 < L) := by
  induction l with
  | nil => intro acc best L h; exact Or.inl h
  | cons q t ih =>
    intro acc best L h
    rw [List.foldl_cons] at h
    rcases ih (bestMountStep x acc q) best L h with h1 | h1
    · by_cases hc : q.mountpoint.isPrefixOf x = true ∧ q.mountpoint.length > acc.2
      · rw [bestMountStep, if_pos (by exact ⟨hc.1, hc.2⟩)] at h1
        have hb : q = best := by
          have := congrArg Prod.fst h1
          simpa using this
        have hL : L = q.mountpoint.length := by
          have := congrArg Prod.snd h1
          simpa using this.symm
        refine Or.inr ⟨hb ▸ List.mem_cons_self q t, hb ▸ hL, hb ▸ hc.1, ?_⟩
        omega
      · rw [bestMountStep, if_neg hc] at h1
        exact Or.inl h1
    · exact Or.inr ⟨List.mem_cons_of_mem q h1.1, h1.2.1, h1.2.2.1, h1.2.2.2⟩

/-- On Windows, the canonicalizer either returns its input unchanged or
returns a server component free of backslashes, then a colon, then a
remainder. -/
theorem canon_windows_shape (table : List PartitionStat) (x : GoStr) :
    CanonicalizePath .windows table x = x ∨
      ∃ server rest, '\\' ∉ server ∧
        CanonicalizePath .windows table x = server ++ ':' :: rest := by
  unfold CanonicalizePath
  cases h1 : (gs "\\\\").isPrefixOf x with
  | false => simp [h1]
  | true =>
    cases h2 : splitFirst '\\' (x.drop 2) with
    | none =>
      simp [h1, goSplitN, h2]
    | some pr =>
      right
      have hnm : '\\' ∉ pr.1 := splitFirst_not_mem '\\' (x.drop 2) pr.1 pr.2 (by rw [h2])
      cases h3 : splitFirst '\\' pr.2 with
      | none =>
        refine ⟨pr.1, pr.2, hnm, ?_⟩
        simp [h1, goSplitN, h2, h3]
      | some qr =>
        refine ⟨pr.1, qr.1 ++ '/' :: qr.2, hnm, ?_⟩
        simp [h1, goSplitN, h2, h3]

/-- On Windows, a string of the form server-colon-rest with a
backslash-free server is a fixed point of the canonicalizer. -/
theorem canon_windows_fix (table : List PartitionStat) (server rest : GoStr)
    (hs : '\\' ∉ server) :
    CanonicalizePath .windows table (server ++ ':' :: rest) = server ++ ':' :: rest := by
  have hd : ∀ c r, (('\\' : Char) = c) = False → ∀ t,
      List.isPrefixOf ('\\' :: t) (c :: r) = false := by
    intro c r hne t
    simp [List.isPrefixOf, hne]
  have hpre : (gs "\\\\").isPrefixOf (server ++ ':' :: rest) = false := by
    cases server with
    | nil =>
      simp only [List.nil_append, gs]
      exact hd ':' rest (by simp) ['\\']
    | cons c s =>
      have hc : ('\\' : Char) ≠ c := by
        intro he
        exact hs (he ▸ List.mem_cons_self c s)
      simp only [List.cons_append, gs]
      exact hd c (s ++ ':' :: rest) (by simp [hc]) ['\\']
  unfold CanonicalizePath
  simp [hpre]

/-- On POSIX hosts, the canonicalizer either returns its input
unchanged or returns device-colon-remainder for a network-filesystem
table entry. -/
theorem canon_other_shape (table : List PartitionStat) (x : GoStr) :
    CanonicalizePath .other table x = x ∨
      ∃ p rel, p ∈ table ∧ goToLower p.fstype ∈ networkFSTypes ∧
        CanonicalizePath .other table x = p.device ++ ':' :: rel := by
  cases hbm : bestMount table x with
  | mk op L =>
    cases op with
    | none =>
      left
      unfold CanonicalizePath
      simp [hbm]
    | some best =>
      by_cases hcond : L > 0 ∧ goToLower best.fstype ∈ networkFSTypes
      · have hmem := foldl_bestMountStep_cases x table (none, 0) best L hbm
        rcases hmem with hmem | hmem
        · simp at hmem
        · right
          refine ⟨best,
            (if (('/' : Char) :: ([] : GoStr)).isPrefixOf
                (x.drop best.mountpoint.length) then
              x.drop best.mountpoint.length
            else '/' :: x.drop best.mountpoint.length),
            hmem.1, hcond.2, ?_⟩
          unfold CanonicalizePath
          simp only [hbm]
          rw [if_pos hcond]
      · left
        unfold CanonicalizePath
        simp only [hbm]
        rw [if_neg hcond]

/-- On POSIX hosts with mountpoints that all begin with a slash, a
string of the form device-colon-remainder whose device does not begin
with a slash is a fixed point of the canonicalizer. -/
theorem canon_other_fix (table : List PartitionStat) (device rel : GoStr)
    (hmp : ∀ p ∈ table, p.mountpoint.head? = some '/')
    (hdev : device.head? ≠ some '/') :
    CanonicalizePath .other table (device ++ ':' :: rel) = device ++ ':' :: rel := by
  have hall : ∀ q ∈ table, q.mountpoint.isPrefixOf (device ++ ':' :: rel) = false := by
    intro q hq
    have hh := hmp q hq
    cases hm : q.mountpoint with
    | nil => rw [hm] at hh; simp at hh
    | cons m ms =>
      rw [hm] at hh
      simp only [List.head?_cons, Option.some.injEq] at hh
      cases device with
      | nil =>
        simp only [List.nil_append]
        simp [List.isPrefixOf, hh]
      | cons d ds =>
        have hd : d ≠ '/' := by
          intro he
          exact hdev (by simp [he])
        simp only [List.cons_append]
        simp [List.isPrefixOf, hh]
        intro he
        exact absurd he.symm hd
  have hbm : bestMount table (device ++ ':' :: rel) = (none, 0) :=
    foldl_bestMountStep_id (device ++ ':' :: rel) table hall (none, 0)
  unfold CanonicalizePath
  rw [hbm]

/-- C9 counterexample: with the mount table fixed at a single nfs entry
whose device string equals its mountpoint /m, the canonicalizer maps
/m/x to /m:/x and maps /m:/x further to /m:/:/x, so applying it to its
own output does not return the output unchanged. -/
theorem c9_counterexample :
    CanonicalizePath .other [⟨gs "/m", gs "/m", gs "nfs"⟩]
        (CanonicalizePath .other [⟨gs "/m", gs "/m", gs "nfs"⟩] (gs "/m/x")) ≠
      CanonicalizePath .other [⟨gs "/m", gs "/m", gs "nfs"⟩] (gs "/m/x") := by
  decide

/-- C9 amended: the canonicalizer is idempotent for every path and
every mount table in which each mountpoint begins with a slash and no
network-filesystem entry has a device string beginning with a slash
(the usual host-colon-export form); with fully arbitrary tables a
second application can match a mountpoint against the emitted
device-colon-remainder string and rewrite it again, as the
counterexample shows. -/
theorem c9_amended (goos : GOOS) (table : List PartitionStat) (absPath : GoStr)
    (hmp : ∀ p ∈ table, p.mountpoint.head? = some '/')
    (hdev : ∀ p ∈ table, goToLower p.fstype ∈ networkFSTypes → p.device.head? ≠ some '/') :
    CanonicalizePath goos table (CanonicalizePath goos table absPath) =
      CanonicalizePath goos table absPath := by
  cases goos with
  | windows =>
    rcases canon_windows_shape table absPath with h | ⟨server, rest, hs, h⟩
    · rw [h, h]
    · rw [h]
      exact canon_windows_fix table server rest hs
  | other =>
    rcases canon_other_shape table absPath with h | ⟨p, rel, hpmem, hnet, h⟩
    · rw [h, h]
    · rw [h]
      exact canon_other_fix table p.device rel hmp (hdev p hpmem hnet)

/-- C9 witness: idempotence at a concrete nfs4 mount table of the
usual shape and a concrete absolute path. -/
theorem c9_witness :
    CanonicalizePath .other [⟨gs "host:/export", gs "/mnt/data", gs "nfs4"⟩]
        (CanonicalizePath .other [⟨gs "host:/export", gs "/mnt/data", gs "nfs4"⟩]
          (gs "/mnt/data/sub/x")) =
      CanonicalizePath .other [⟨gs "host:/export", gs "/mnt/data", gs "nfs4"⟩]
        (gs "/mnt/data/sub/x") :=
  c9_amended .other [⟨gs "host:/export", gs "/mnt/data", gs "nfs4"⟩]
    (gs "/mnt/data/sub/x") (by decide) (by decide)

/-- Folding map-insertions of entries whose keys are fresh for the
accumulator and mutually distinct appends the entries in order. -/
theorem foldl_append_fresh :
    ∀ (l acc : List (String × GoVal)),
      (∀ kv ∈ l, kv.1 ∉ acc.map Prod.fst) →
      (l.map Prod.fst).Nodup →
      l.foldl (fun m kv => if (m.map Prod.fst).contains kv.1 then m else m ++ [kv]) acc =
        acc ++ l := by
  intro l
  induction l with
  | nil => intro acc _ _; simp
  | cons kv t ih =>
    intro acc hfresh hnodup
    have hk : kv.1 ∉ acc.map Prod.fst := hfresh kv (List.mem_cons_self kv t)
    have hhd : kv.1 ∉ t.map Prod.fst := by
      rw [List.map_cons, List.nodup_cons] at hnodup
      exact hnodup.1
    rw [List.foldl_cons, if_neg (by simpa using hk)]
    have hfresh2 : ∀ kv2 ∈ t, kv2.1 ∉ (acc ++ [kv]).map Prod.fst := by
      intro kv2 hkv2
      simp only [List.map_append, List.map_cons, List.map_nil, List.mem_append,
        List.mem_singleton]
      rintro (hin | hin)
      · exact hfresh kv2 (List.mem_cons_of_mem kv hkv2) hin
      · exact hhd (hin ▸ List.mem_map_of_mem Prod.fst hkv2)
    rw [ih (acc ++ [kv]) hfresh2 (by
      rw [List.map_cons, List.nodup_cons] at hnodup
      exact hnodup.2)]
    simp

/-- MarshalJSON on a record whose Extra keys are mutually distinct and
disjoint from the known field names emits the seven known members
followed by the Extra entries in order. -/
theorem marshalFields_eq (r : FileMetadata)
    (hnodup : (r.Extra.map Prod.fst).Nodup)
    (hdisj : ∀ kv ∈ r.Extra, kv.1 ∉ knownKeys) :
    marshalFields r = known7 r ++ r.Extra := by
  apply foldl_append_fresh r.Extra (known7 r) _ hnodup
  intro kv hkv
  have hkn : (known7 r).map Prod.fst = knownKeys := rfl
  rw [hkn]
  exact hdisj kv hkv

/-- Folding Go map insertion over members with mutually fresh keys
appends them in order. -/
theorem foldl_upsert_fresh :
    ∀ (l acc : List (String × GoVal)),
      ((acc.map Prod.fst ++ l.map Prod.fst)).Nodup →
      l.foldl (fun m kv => upsert m kv.1 kv.2) acc = acc ++ l := by
  intro l
  induction l with
  | nil => intro acc _; simp
  | cons kv t ih =>
    intro acc hnodup
    rw [List.map_cons] at hnodup
    have hdj := (List.nodup_append.mp hnodup).2.2
    have hk : kv.1 ∉ acc.map Prod.fst := by
      intro hx
      exact hdj hx (List.mem_cons_self kv.1 (t.map Prod.fst))
    rw [List.foldl_cons]
    rw [show upsert acc kv.1 kv.2 = acc ++ [kv] by
      rw [upsert, if_neg (by simpa using hk)]]
    rw [ih (acc ++ [kv]) (by
      simp only [List.map_append, List.map_cons, List.map_nil]
      rw [List.append_assoc, List.singleton_append]
      exact hnodup)]
    simp

/-- Building the Go map from members with mutually distinct keys keeps
them in order. -/
theorem tmpOf_eq_self (fields : List (String × GoVal))
    (hnodup : (fields.map Prod.fst).Nodup) : tmpOf fields = fields := by
  have := foldl_upsert_fresh fields [] (by simpa using hnodup)
  simpa [tmpOf] using this

/-- Marshal-then-parse distributes over concatenated member lists. -/
theorem jsonRoundTripFields_append (l1 l2 : List (String × GoVal)) :
    jsonRoundTripFields (l1 ++ l2) =
      jsonRoundTripFields l1 ++ jsonRoundTripFields l2 := by
  induction l1 with
  | nil => simp [jsonRoundTripFields]
  | cons kv t ih =>
    cases kv with
    | mk k v => simp [jsonRoundTripFields, ih]

/-- A value already in decoded form is reproduced by marshal-then-
parse. -/
theorem decodedForm_roundTrip (v : GoVal) (h : DecodedForm v) :
    jsonRoundTrip v = v := by
  induction h with
  | null => rfl
  | boolean b => rfl
  | float64 q => rfl
  | str s => rfl
  | arr l hmem ih =>
    rw [jsonRoundTrip]
    have : ∀ t : List GoVal, (∀ v ∈ t, jsonRoundTrip v = v) → jsonRoundTripList t = t := by
      intro t
      induction t with
      | nil => intro _; rfl
      | cons x xs ihx =>
        intro hx
        rw [jsonRoundTripList, hx x (List.mem_cons_self x xs),
          ihx fun y hy => hx y (List.mem_cons_of_mem x hy)]
    rw [this l ih]
  | obj l hmem ih =>
    rw [jsonRoundTrip]
    have : ∀ t : List (String × GoVal), (∀ kv ∈ t, jsonRoundTrip kv.2 = kv.2) →
        jsonRoundTripFields t = t := by
      intro t
      induction t with
      | nil => intro _; rfl
      | cons x xs ihx =>
        intro hx
        cases x with
        | mk k v2 =>
          rw [jsonRoundTripFields, hx (k, v2) (List.mem_cons_self _ xs),
            ihx fun y hy => hx y (List.mem_cons_of_mem _ hy)]
    rw [this l ih]

/-- Member lists whose values are in decoded form are reproduced by
marshal-then-parse. -/
theorem jsonRoundTripFields_eq_self (l : List (String × GoVal))
    (h : ∀ kv ∈ l, DecodedForm kv.2) : jsonRoundTripFields l = l := by
  induction l with
  | nil => rfl
  | cons kv t ih =>
    cases kv with
    | mk k v =>
      rw [jsonRoundTripFields,
        decodedForm_roundTrip v (h (k, v) (List.mem_cons_self _ t)),
        ih fun y hy => h y (List.mem_cons_of_mem _ hy)]

/-- Numbers up to 2^53 are exactly representable as float64. -/
theorem roundF64Nat_eq_self (n : Nat) (h : n ≤ 2 ^ 53) : roundF64Nat n = n := by
  rcases Nat.lt_or_ge n (2 ^ 53) with hlt | hge
  · have he : ulpSearch 64 0 n = 0 := by
      rw [ulpSearch, if_pos (by simpa using hlt)]
    rw [roundF64Nat, he]
    simp [roundToMultiple, Nat.mod_one, Nat.div_one]
  · have hn : n = 2 ^ 53 := le_antisymm h hge
    subst hn
    decide

/-- Integers of magnitude up to 2^53 are exactly representable as
float64. -/
theorem roundF64_eq_self (i : Int) (h : i.natAbs ≤ 2 ^ 53) : roundF64 i = i := by
  rw [roundF64]
  rcases Int.lt_or_le i 0 with hneg | hpos
  · rw [if_pos hneg, roundF64Nat_eq_self _ h]
    omega
  · rw [if_neg (by omega), roundF64Nat_eq_self _ h]
    omega

/-- Go's int64 conversion of a float64 carrying an integer recovers
the integer. -/
theorem goIntOfFloat_intCast (n : Int) : goIntOfFloat ((n : Int) : ℚ) = n := by
  rw [goIntOfFloat]
  simp [Rat.num_intCast, Rat.den_intCast, Int.tdiv_one]

/-- C5 counterexample: the record whose size is 2^53 + 1 (an int64
that is not exactly representable as a float64) and whose Extra map is
empty does not survive the decode-after-encode round trip: the decoder
reads the size member back through a float64 and recovers 2^53. -/
theorem c5_counterexample :
    (decodeAfterEncode ⟨"", "", "", "", 2 ^ 53 + 1, "", "", []⟩).Size = 2 ^ 53 ∧
      decodeAfterEncode ⟨"", "", "", "", 2 ^ 53 + 1, "", "", []⟩ ≠
        ⟨"", "", "", "", 2 ^ 53 + 1, "", "", []⟩ := by
  have hs : (decodeAfterEncode ⟨"", "", "", "", 2 ^ 53 + 1, "", "", []⟩).Size =
      2 ^ 53 := by decide
  refine ⟨hs, fun h => ?_⟩
  have hc := congrArg FileMetadata.Size h
  rw [hs] at hc
  norm_num at hc

/-- C5 amended: decode after encode is the identity on every record
whose Extra association list has mutually distinct keys disjoint from
the seven known field names, whose Extra values are already in decoded
form (the image of json.Unmarshal, so no int64 inside), and whose size
is exactly representable as a float64 (magnitude at most 2^53); the
counterexample shows the size bound cannot be dropped. -/
theorem c5_amended (r : FileMetadata)
    (hnodup : (r.Extra.map Prod.fst).Nodup)
    (hdisj : ∀ kv ∈ r.Extra, kv.1 ∉ knownKeys)
    (hvals : ∀ kv ∈ r.Extra, DecodedForm kv.2)
    (hsize : r.Size.natAbs ≤ 2 ^ 53) :
    decodeAfterEncode r = r := by
  obtain ⟨i, ids, ho, fp, sz, mt, b3, ex⟩ := r
  rw [decodeAfterEncode, marshalFields_eq _ hnodup hdisj, jsonRoundTripFields_append,
    jsonRoundTripFields_eq_self _ hvals]
  have h7 : jsonRoundTripFields (known7 ⟨i, ids, ho, fp, sz, mt, b3, ex⟩) =
      [("_id", .str i), ("idString", .str ids), ("hostID", .str ho),
        ("filePath", .str fp), ("size", .float64 ((roundF64 sz : Int) : ℚ)),
        ("modTime", .str mt), ("blake3", .str b3)] := rfl
  rw [h7]
  have hkeys : (([("_id", GoVal.str i), ("idString", .str ids), ("hostID", .str ho),
      ("filePath", .str fp), ("size", .float64 ((roundF64 sz : Int) : ℚ)),
      ("modTime", .str mt), ("blake3", .str b3)] ++ ex).map Prod.fst).Nodup := by
    rw [List.map_append, List.nodup_append]
    refine ⟨?_, hnodup, ?_⟩
    · rw [show List.map Prod.fst [("_id", GoVal.str i), ("idString", .str ids),
        ("hostID", .str ho), ("filePath", .str fp),
        ("size", .float64 ((roundF64 sz : Int) : ℚ)), ("modTime", .str mt),
        ("blake3", .str b3)] = knownKeys from rfl]
      decide
    · intro a ha hae
      obtain ⟨kv, hkv, rfl⟩ := List.mem_map.mp hae
      exact hdisj kv hkv (by simpa [knownKeys] using ha)
  rw [unmarshalFileMetadata, tmpOf_eq_self _ hkeys]
  have hex : List.filter (fun kv => !(knownKeys.contains kv.1)) ex = ex :=
    List.filter_eq_self.mpr fun kv hkv => by simpa [knownKeys] using hdisj kv hkv
  simp only [List.cons_append, List.nil_append, List.lookup, List.filter]
  simp only [show ∀ s : String, (s == s) = true from fun s => by simp]
  simp [knownKeys, hex, goIntOfFloat_intCast, roundF64_eq_self sz hsize]
  intro a b hab
  have hh := hdisj (a, b) hab
  simp [knownKeys] at hh
  exact hh

/-- C5 witness: the amended round-trip statement at a concrete record
carrying the extras tag and rank. -/
theorem c5_witness :
    decodeAfterEncode ⟨"id0", "ids0", "host0", "/p/q", 1000, "t0", "d0",
        [("tag", .str "a"), ("rank", .float64 7)]⟩ =
      ⟨"id0", "ids0", "host0", "/p/q", 1000, "t0", "d0",
        [("tag", .str "a"), ("rank", .float64 7)]⟩ :=
  c5_amended _ (by decide) (by decide)
    (by
      intro kv hkv
      rcases List.mem_cons.mp hkv with rfl | hkv
      · exact DecodedForm.str "a"
      rcases List.mem_cons.mp hkv with rfl | hkv
      · exact DecodedForm.float64 7
      · exact absurd hkv (List.not_mem_nil kv))
    (by decide)

/-- Lookup of the key just placed at the head of an association list. -/
theorem lookup_head_eq {β : Type} (k : String) (v : β) (rest : List (String × β)) :
    List.lookup k ((k, v) :: rest) = some v :=
  List.lookup_cons_self

/-- Lookup of a key different from the head key of an association
list skips the head. -/
theorem lookup_head_ne {β : Type} (a k : String) (v : β) (rest : List (String × β))
    (h : a ≠ k) : List.lookup a ((k, v) :: rest) = List.lookup a rest := by
  rw [List.lookup_cons, show (a == k) = false by simpa using h]

/-- Replacing the value stored under one key changes no other lookup
and makes that key map to the new value exactly when it was present. -/
theorem lookup_mapReplace {β : Type} :
    ∀ (m : List (String × β)) (k : String) (v : β) (k2 : String),
      (m.map fun e => if e.1 = k then (e.1, v) else e).lookup k2 =
        if k2 = k then (if (m.map Prod.fst).contains k then some v else none)
        else m.lookup k2 := by
  intro m k v
  induction m with
  | nil => intro k2; by_cases h : k2 = k <;> simp [List.lookup, h]
  | cons e t ih =>
    intro k2
    obtain ⟨a, b⟩ := e
    rw [List.map_cons]
    rw [show (if (a, b).1 = k then ((a, b).1, v) else (a, b)) =
      if a = k then (a, v) else (a, b) from rfl]
    by_cases ha : a = k
    · subst ha
      rw [if_pos rfl]
      by_cases h2 : k2 = a
      · subst h2
        rw [lookup_head_eq, if_pos rfl]
        simp
      · rw [lookup_head_ne _ _ _ _ h2, ih k2, if_neg h2, if_neg h2,
          lookup_head_ne _ _ _ _ h2]
    · rw [if_neg ha]
      by_cases h2 : k2 = a
      · subst h2
        have hne : k2 ≠ k := ha
        rw [lookup_head_eq, if_neg hne, lookup_head_eq]
      · rw [lookup_head_ne _ _ _ _ h2, ih k2]
        by_cases h3 : k2 = k
        · rw [if_pos h3, if_pos h3]
          have hka : (k == a) = false := by
            simpa using fun he => ha he.symm
          rw [List.map_cons,
            show ((a, b).1 :: List.map Prod.fst t).contains k =
              (List.map Prod.fst t).contains k by simp [List.contains_cons, hka]]
        · rw [if_neg h3, if_neg h3, lookup_head_ne _ _ _ _ h2]

/-- Lookup after a Go map insertion: the inserted key maps to the new
value, every other key is unaffected. -/
theorem lookup_upsert {β : Type} (m : List (String × β)) (k k2 : String) (v : β) :
    (upsert m k v).lookup k2 = if k2 = k then some v else m.lookup k2 := by
  rw [upsert]
  cases hc : (m.map Prod.fst).contains k
  · rw [if_neg (by simp [hc])]
    by_cases h2 : k2 = k
    · subst h2
      have hk2 : k2 ∉ m.map Prod.fst := by simpa using hc
      have hnone : m.lookup k2 = none := by
        rw [List.lookup_eq_none_iff]
        intro p hp
        simp only [bne_iff_ne, ne_eq]
        intro he
        exact hk2 (he ▸ List.mem_map_of_mem Prod.fst hp)
      rw [if_pos rfl]
      simp [List.lookup_append, hnone, lookup_head_eq]
    · rw [if_neg h2]
      have hone : List.lookup k2 [(k, v)] = none := by
        rw [List.lookup_eq_none_iff]
        intro p hp
        simp only [List.mem_singleton] at hp
        subst hp
        simpa using h2
      simp [List.lookup_append, hone]
  · rw [if_pos (by simp [hc])]
    rw [lookup_mapReplace m k v k2, hc]
    simp

/-- Lookup after a store put: the record's id maps to the record,
other ids are unaffected. -/
theorem storeLookup_storePut (s : List (String × FileMetadata))
    (meta : FileMetadata) (k : String) :
    storeLookup (storePut s meta) k =
      if k = meta.ID then some meta else storeLookup s k :=
  lookup_upsert s meta.ID k meta

/-- Every record readable after a bulk sequence of puts was either
already stored or is one of the put records, keyed by its own id. -/
theorem lookup_foldl_storePut :
    ∀ (ms : List FileMetadata) (store : List (String × FileMetadata)) (k : String)
      (r : FileMetadata),
      storeLookup (ms.foldl storePut store) k = some r →
      storeLookup store k = some r ∨ (r ∈ ms ∧ r.ID = k) := by
  intro ms
  induction ms with
  | nil => intro store k r h; exact Or.inl h
  | cons m t ih =>
    intro store k r h
    rw [List.foldl_cons] at h
    rcases ih (storePut store m) k r h with h1 | h1
    · rw [storeLookup_storePut] at h1
      by_cases hk : k = m.ID
      · rw [if_pos hk] at h1
        cases h1
        exact Or.inr ⟨List.mem_cons_self m t, hk.symm⟩
      · rw [if_neg hk] at h1
        exact Or.inl h1
    · exact Or.inr ⟨List.mem_cons_of_mem m h1.1, h1.2⟩

/-- A key present in the store stays present across a bulk sequence of
puts. -/
theorem lookup_foldl_storePut_isSome :
    ∀ (ms : List FileMetadata) (store : List (String × FileMetadata)) (k : String),
      (storeLookup store k).isSome →
      (storeLookup (ms.foldl storePut store) k).isSome := by
  intro ms
  induction ms with
  | nil => intro store k h; exact h
  | cons m t ih =>
    intro store k h
    rw [List.foldl_cons]
    apply ih
    rw [storeLookup_storePut]
    by_cases hk : k = m.ID
    · simp [hk]
    · simpa [hk] using h

/-- After a bulk sequence of puts, the id of every put record maps to
one of the put records that carries that id. -/
theorem lookup_foldl_storePut_present :
    ∀ (ms : List FileMetadata) (store : List (String × FileMetadata))
      (meta : FileMetadata), meta ∈ ms →
      ∃ r, r ∈ ms ∧ r.ID = meta.ID ∧
        storeLookup (ms.foldl storePut store) meta.ID = some r := by
  intro ms
  induction ms with
  | nil => intro store meta h; exact absurd h (List.not_mem_nil meta)
  | cons m t ih =>
    intro store meta hmem
    rw [List.foldl_cons]
    rcases List.mem_cons.mp hmem with rfl | hmem
    · have hput : storeLookup (storePut store meta) meta.ID = some meta := by
        rw [storeLookup_storePut, if_pos rfl]
      have hsome := lookup_foldl_storePut_isSome t (storePut store meta) meta.ID
        (by simp [hput])
      obtain ⟨r, hr⟩ := Option.isSome_iff_exists.mp hsome
      rcases lookup_foldl_storePut t (storePut store meta) meta.ID r hr with h1 | h1
      · rw [hput] at h1
        cases h1
        exact ⟨meta, List.mem_cons_self meta t, rfl, hr⟩
      · exact ⟨r, List.mem_cons_of_mem meta h1.1, h1.2, hr⟩
    · obtain ⟨r, hr1, hr2, hr3⟩ := ih (storePut store m) meta hmem
      exact ⟨r, List.mem_cons_of_mem m hr1, hr2, hr3⟩

/-- C8: a record delivered by incremental gossip (NotifyMsg) or bulk
merge (MergeRemoteState) and decoded successfully is stored exactly as
received — the stored entry under the payload record's id is the
decoded payload record itself (hostID field included), every record
readable after a merge is either pre-existing or one of the payload
records, and both handlers are independent of the receiving node's own
host identifier. -/
theorem c8_replication_preserves_records :
    (∀ (selfHostID : String) (msg : GoVal) (store : List (String × FileMetadata))
        (meta : FileMetadata), decodeFileMetadata msg = some meta →
        storeLookup (NotifyMsg selfHostID msg store) meta.ID = some meta) ∧
      (∀ (self1 self2 : String) (msg : GoVal) (store : List (String × FileMetadata)),
        NotifyMsg self1 msg store = NotifyMsg self2 msg store) ∧
      (∀ (selfHostID : String) (buf : GoVal) (store : List (String × FileMetadata))
          (ms : List FileMetadata), decodeMetaList buf = some ms →
        (∀ (k : String) (r : FileMetadata),
            storeLookup (MergeRemoteState selfHostID buf store) k = some r →
            storeLookup store k = some r ∨ r ∈ ms) ∧
          (∀ meta ∈ ms, ∃ r ∈ ms, r.ID = meta.ID ∧
            storeLookup (MergeRemoteState selfHostID buf store) meta.ID = some r)) ∧
      (∀ (self1 self2 : String) (buf : GoVal) (store : List (String × FileMetadata)),
        MergeRemoteState self1 buf store = MergeRemoteState self2 buf store) := by
  refine ⟨?_, ?_, ?_, ?_⟩
  · intro self msg store meta hdec
    rw [NotifyMsg, hdec, storeLookup_storePut, if_pos rfl]
  · intro _ _ _ _
    rfl
  · intro self buf store ms hdec
    constructor
    · intro k r hl
      rw [MergeRemoteState, hdec] at hl
      rcases lookup_foldl_storePut ms store k r hl with h | h
      · exact Or.inl h
      · exact Or.inr h.1
    · intro meta hmem
      obtain ⟨r, h1, h2, h3⟩ := lookup_foldl_storePut_present ms store meta hmem
      rw [MergeRemoteState, hdec]
      exact ⟨r, h1, h2, h3⟩
  · intro _ _ _ _
    rfl

/-- C8 witness: an incremental gossip payload carrying the observer's
host identifier is stored with that identifier on a receiver whose own
identifier differs. -/
theorem c8_witness :
    storeLookup
        (NotifyMsg "receiver-host"
          (GoVal.obj [("_id", .str "k1"), ("hostID", .str "origin-host")]) [])
        "k1" =
      some ⟨"k1", "", "origin-host", "", 0, "", "", []⟩ :=
  c8_replication_preserves_records.1 "receiver-host"
    (GoVal.obj [("_id", .str "k1"), ("hostID", .str "origin-host")]) []
    ⟨"k1", "", "origin-host", "", 0, "", "", []⟩ rfl

/-- One CacheWriter transition preserves the bookkeeping invariant:
the flushed records, the worker batch and the channel buffer partition
the accepted records in order, and a finished worker holds an empty
batch. -/
theorem cwStep_inv {α : Type} (batchSize : Nat) (s : CWState α) (a : CWAct α)
    (h1 : s.flushed ++ s.batch ++ s.chanBuf = s.accepted)
    (h2 : s.workerDone = true → s.batch = []) :
    (cwStep batchSize s a).flushed ++ (cwStep batchSize s a).batch ++
        (cwStep batchSize s a).chanBuf = (cwStep batchSize s a).accepted ∧
      ((cwStep batchSize s a).workerDone = true → (cwStep batchSize s a).batch = []) := by
  cases a with
  | write m =>
    rw [cwStep]
    split
    · refine ⟨?_, h2⟩
      show s.flushed ++ s.batch ++ (s.chanBuf ++ [m]) = s.accepted ++ [m]
      rw [← h1]
      simp
    · exact ⟨h1, h2⟩
  | recv =>
    rw [cwStep]
    split
    · exact ⟨h1, h2⟩
    · next hd =>
      split
      · exact ⟨h1, h2⟩
      · next m rest heq =>
        split
        · refine ⟨?_, fun _ => rfl⟩
          show ((s.flushed ++ (s.batch ++ [m])) ++ []) ++ rest = s.accepted
          rw [← h1, heq]
          simp
        · refine ⟨?_, fun hw => absurd hw hd⟩
          show (s.flushed ++ (s.batch ++ [m])) ++ rest = s.accepted
          rw [← h1, heq]
          simp
  | timer =>
    rw [cwStep]
    split
    · exact ⟨h1, h2⟩
    · next hd =>
      split
      · exact ⟨h1, h2⟩
      · refine ⟨?_, fun hw => absurd hw hd⟩
        show ((s.flushed ++ s.batch) ++ []) ++ s.chanBuf = s.accepted
        rw [← h1]
        simp
  | flushNow =>
    rw [cwStep]
    split
    · exact ⟨h1, h2⟩
    · next hd =>
      split
      · exact ⟨h1, h2⟩
      · refine ⟨?_, fun hw => absurd hw hd⟩
        show ((s.flushed ++ s.batch) ++ []) ++ s.chanBuf = s.accepted
        rw [← h1]
        simp
  | close =>
    rw [cwStep]
    exact ⟨h1, h2⟩
  | quitRecv =>
    rw [cwStep]
    split
    · exact ⟨h1, h2⟩
    · refine ⟨?_, fun _ => rfl⟩
      show ((s.flushed ++ s.batch) ++ []) ++ s.chanBuf = s.accepted
      rw [← h1]
      simp

/-- The CacheWriter bookkeeping invariant holds in every reachable
state of every run. -/
theorem cwRun_invariant {α : Type} (batchSize : Nat) (acts : List (CWAct α)) :
    (cwRun batchSize acts).flushed ++ (cwRun batchSize acts).batch ++
        (cwRun batchSize acts).chanBuf = (cwRun batchSize acts).accepted ∧
      ((cwRun batchSize acts).workerDone = true → (cwRun batchSize acts).batch = []) := by
  rw [cwRun]
  suffices h : ∀ (s : CWState α),
      s.flushed ++ s.batch ++ s.chanBuf = s.accepted →
      (s.workerDone = true → s.batch = []) →
      (acts.foldl (cwStep batchSize) s).flushed ++ (acts.foldl (cwStep batchSize) s).batch ++
          (acts.foldl (cwStep batchSize) s).chanBuf = (acts.foldl (cwStep batchSize) s).accepted ∧
        ((acts.foldl (cwStep batchSize) s).workerDone = true →
          (acts.foldl (cwStep batchSize) s).batch = []) by
    exact h cwInit (by simp [cwInit]) (by simp [cwInit])
  induction acts with
  | nil => intro s hs1 h2; exact ⟨hs1, h2⟩
  | cons a t ih =>
    intro s hs1 hs2
    rw [List.foldl_cons]
    obtain ⟨g1, g2⟩ := cwStep_inv batchSize s a hs1 hs2
    exact ih (cwStep batchSize s a) g1 g2

/-- C7 counterexample: with batchSize 2, the run Write 7, Close,
worker-observes-quit is a legal interleaving (Go select chooses the
ready quit case over the ready channel case); afterwards Close has
returned — quit closed and the worker finished — yet the accepted
record 7 was never flushed: the shutdown drain covers only the
worker's batch, not the channel buffer. -/
theorem c7_counterexample :
    (cwRun 2 [CWAct.write 7, CWAct.close, CWAct.quitRecv]).quitClosed = true ∧
      (cwRun 2 [CWAct.write 7, CWAct.close, CWAct.quitRecv]).workerDone = true ∧
      7 ∈ (cwRun 2 [CWAct.write 7, CWAct.close, CWAct.quitRecv]).accepted ∧
      7 ∉ (cwRun 2 [CWAct.write 7, CWAct.close, CWAct.quitRecv]).flushed := by
  decide

/-- C7 amended: in every run of the CacheWriter, once the worker has
shut down its batch is empty and the flushed records followed by the
records still sitting in the channel buffer are exactly the accepted
records in submission order.  Records accepted into the channel but
not yet received by the worker when it observes quit are lost, as the
counterexample shows; only the in-memory batch is drained on
shutdown. -/
theorem c7_amended {α : Type} (batchSize : Nat) (acts : List (CWAct α))
    (hdone : (cwRun batchSize acts).workerDone = true) :
    (cwRun batchSize acts).flushed ++ (cwRun batchSize acts).chanBuf =
      (cwRun batchSize acts).accepted := by
  obtain ⟨h1, h2⟩ := cwRun_invariant batchSize acts
  rw [h2 hdone] at h1
  simpa using h1

/-- C7 witness: the amended statement on the counterexample run — the
accepted record survives in the channel buffer, not in the store. -/
theorem c7_witness :
    (cwRun 2 [CWAct.write 7, CWAct.close, CWAct.quitRecv]).flushed ++
        (cwRun 2 [CWAct.write 7, CWAct.close, CWAct.quitRecv]).chanBuf =
      (cwRun 2 [CWAct.write 7, CWAct.close, CWAct.quitRecv]).accepted :=
  c7_amended 2 [CWAct.write 7, CWAct.close, CWAct.quitRecv] (by decide)

/-- Counting a path among the paths of a filtered entry list counts
the entries that pass the filter and carry that path. -/
theorem count_map_filter_path (q : List String) (p : FSEntry → Bool)
    (fs : List FSEntry) :
    ((fs.filter p).map FSEntry.path).count q =
      fs.countP fun e => p e && e.path == q := by
  induction fs with
  | nil => rfl
  | cons e t ih =>
    cases hp : p e with
    | false =>
      rw [List.filter_cons, if_neg (by simp [hp]), List.countP_cons]
      simp [hp, ih]
    | true =>
      rw [List.filter_cons, if_pos (by simp [hp]), List.map_cons, List.count_cons,
        List.countP_cons]
      simp [hp, ih]

/-- Occurrences in a flat map sum the occurrences per piece. -/
theorem count_flatMap_sum {γ : Type} (f : γ → List (List String)) (l : List γ)
    (q : List String) :
    ((l.flatMap f).count q) = (l.map fun d => (f d).count q).sum := by
  induction l with
  | nil => rfl
  | cons d t ih => rw [List.flatMap_cons, List.count_append, ih, List.map_cons,
      List.sum_cons]

/-- Summing a constant guarded by a Boolean multiplies the constant by
the number of passes. -/
theorem sum_map_ite {γ : Type} (l : List γ) (P : γ → Bool) (A : Nat) :
    (l.map fun d => if P d then A else 0).sum = A * l.countP P := by
  induction l with
  | nil => simp
  | cons d t ih =>
    rw [List.map_cons, List.sum_cons, ih, List.countP_cons]
    cases hp : P d <;> simp [hp] <;> ring

/-- The files collected beneath one directory contribute the whole
multiplicity of a path exactly when the directory lies strictly above
it. -/
theorem count_filesUnder (fs : List FSEntry) (d : FSEntry) (q : List String) :
    (filesUnder fs d).count q =
      if properUnder d.path q then (fs.countP fun e => !e.isDir && e.path == q)
      else 0 := by
  rw [filesUnder, count_map_filter_path]
  have hcongr : ∀ e ∈ fs, ((!e.isDir && properUnder d.path e.path) && e.path == q) =
      (properUnder d.path q && (!e.isDir && e.path == q)) := by
    intro e _
    cases hpq : (e.path == q) with
    | false => simp [hpq]
    | true =>
      have : e.path = q := by simpa using hpq
      rw [this]
      cases e.isDir <;> cases properUnder d.path q <;> simp
  rw [List.countP_congr fun e he => by rw [hcongr e he]]
  cases hP : properUnder d.path q with
  | false =>
    rw [show (fun e : FSEntry => false && (!e.isDir && e.path == q)) =
      fun _ => false by funext e; simp]
    simp [List.countP_false, Function.const]
  | true =>
    rw [show (fun e : FSEntry => true && (!e.isDir && e.path == q)) =
      fun e => !e.isDir && e.path == q by funext e; simp]
    simp

/-- C6 counterexample: in the filesystem with nested directories a and
a/b and the single file a/b/f, the walk of ProcessAllDirectories
fingerprints and persists a/b/f twice — once while processing the
collected subdirectory a and once for a/b — not exactly once as the
claim states; the subdirectory collection walk is recursive, not a
non-recursive enumeration of direct children. -/
theorem c6_counterexample :
    (processedPaths [⟨["a"], true⟩, ⟨["a", "b"], true⟩,
        ⟨["a", "b", "f"], false⟩]).count ["a", "b", "f"] = 2 ∧
      (processedPaths [⟨["a"], true⟩, ⟨["a", "b"], true⟩,
        ⟨["a", "b", "f"], false⟩]).count ["a", "b", "f"] ≠ 1 := by
  constructor
  · decide
  · decide

/-- C6 amended: phase A processes exactly the non-directory direct
children of the root, and phase B enumerates ALL directories strictly
below the root (the collection walk is recursive) and processes every
non-directory entry beneath each of them; consequently a path is
processed once per matching file entry for being a direct child of the
root, plus once per matching file entry for every directory entry that
lies strictly above it — so files nested below one subdirectory level
are processed several times, not exactly once. -/
theorem c6_amended (fs : List FSEntry) (q : List String) :
    (processedPaths fs).count q =
      (fs.countP fun e => !e.isDir && e.path == q) *
        ((if q.length = 1 then 1 else 0) +
          fs.countP fun e => properUnder e.path q && (e.isDir && !e.path.isEmpty)) := by
  rw [processedPaths, List.count_append]
  have hA : (phaseAFiles fs).count q =
      (fs.countP fun e => !e.isDir && e.path == q) * (if q.length = 1 then 1 else 0) := by
    rw [phaseAFiles, count_map_filter_path]
    have hcongr : ∀ e ∈ fs,
        ((!e.isDir && decide (e.path.length = 1)) && e.path == q) =
          (decide (q.length = 1) && (!e.isDir && e.path == q)) := by
      intro e _
      cases hpq : (e.path == q) with
      | false => simp [hpq]
      | true =>
        have hq : e.path = q := by simpa using hpq
        rw [hq]
        by_cases hl : q.length = 1
        · simp [hl]
        · simp [hl]
    rw [List.countP_congr fun e he => by rw [hcongr e he]]
    by_cases hl : q.length = 1
    · rw [show (fun e : FSEntry => decide (q.length = 1) && (!e.isDir && e.path == q)) =
        fun e => !e.isDir && e.path == q by funext e; simp [hl]]
      rw [if_pos hl]
      simp
    · rw [show (fun e : FSEntry => decide (q.length = 1) && (!e.isDir && e.path == q)) =
        fun _ => false by funext e; simp [hl]]
      rw [if_neg hl]
      simp [List.countP_false, Function.const]
  have hB : ((subdirsOf fs).flatMap (filesUnder fs)).count q =
      (fs.countP fun e => !e.isDir && e.path == q) *
        fs.countP fun e => properUnder e.path q && (e.isDir && !e.path.isEmpty) := by
    rw [count_flatMap_sum]
    rw [show ((subdirsOf fs).map fun d => (filesUnder fs d).count q) =
        (subdirsOf fs).map fun d =>
          if properUnder d.path q then (fs.countP fun e => !e.isDir && e.path == q)
          else 0 by
      apply List.map_congr_left
      intro d _
      exact count_filesUnder fs d q]
    rw [sum_map_ite, subdirsOf, List.countP_filter]
  rw [hA, hB]
  ring

/-- The sixteen digit characters emitted for values below sixteen are
lowercase hexadecimal digits. -/
theorem digitChar_mem_hexDigits (d : Nat) (h : d < 16) :
    Nat.digitChar d ∈ hexDigits := by
  interval_cases d <;> decide

/-- Every character produced by the bounded hex digit expansion is a
lowercase hexadecimal digit. -/
theorem hexNatAux_digits :
    ∀ (fuel n : Nat) (c : Char), c ∈ hexNatAux fuel n → c ∈ hexDigits := by
  intro fuel
  induction fuel with
  | zero => intro n c hc; exact absurd hc (List.not_mem_nil c)
  | succ fuel ih =>
    intro n c hc
    rw [hexNatAux] at hc
    by_cases h0 : n = 0
    · rw [if_pos h0] at hc
      exact absurd hc (List.not_mem_nil c)
    · rw [if_neg h0] at hc
      rcases List.mem_append.mp hc with hc | hc
      · exact ih (n / 16) c hc
      · rw [List.mem_singleton] at hc
        subst hc
        exact digitChar_mem_hexDigits (n % 16) (Nat.mod_lt n (by norm_num))

/-- For a nonnegative size, strconv.FormatInt in base 16 emits only
lowercase hexadecimal digits and no prefix or sign. -/
theorem formatIntHex_digits (i : Int) (h : 0 ≤ i) :
    ∀ c ∈ (formatIntHex i).data, c ∈ hexDigits := by
  rw [formatIntHex, if_neg (by omega)]
  intro c hc
  rw [hexNat] at hc
  by_cases h0 : i.natAbs = 0
  · rw [if_pos h0] at hc
    have : c = '0' := by simpa using hc
    subst this
    decide
  · rw [if_neg h0] at hc
    exact hexNatAux_digits 64 i.natAbs c hc

/-- C4: every record ProcessFile persists has an idString that is the
literal concatenation of its own host id, canonical path, modification
time, lowercase hexadecimal size and digest joined by vertical bars,
and an id that is the abstracted version-5 URL-namespace UUID of that
idString; the record's host id is the ambient host id, a broadcast —
when one happens — carries the very same record, and the size renders
with lowercase hexadecimal digits only.  id and idString are therefore
pure functions of the five identity inputs and of nothing else. -/
theorem c4_identity (hash : List Nat → String) (uuid5url : String → String)
    (hostID : String) (goos : GOOS) (table : List PartitionStat)
    (cancelled : Bool) (stat : Option FileStat) (absPath : Option GoStr)
    (content : Option (List Nat)) (swarmAttached : Bool) (store : Bool)
    (meta : FileMetadata)
    (hput : (ProcessFile hash uuid5url hostID goos table cancelled stat absPath
        content swarmAttached store).stored = some meta) :
    meta.IDString =
        buildIdString meta.HostID meta.FilePath meta.ModTime meta.Size meta.BLAKE3 ∧
      meta.ID = uuid5url meta.IDString ∧
      meta.HostID = hostID ∧
      ((ProcessFile hash uuid5url hostID goos table cancelled stat absPath
          content swarmAttached store).broadcasted = none ∨
        (ProcessFile hash uuid5url hostID goos table cancelled stat absPath
          content swarmAttached store).broadcasted = some meta) ∧
      (0 ≤ meta.Size → ∀ c ∈ (formatIntHex meta.Size).data, c ∈ hexDigits) := by
  rw [ProcessFile.eq_def] at hput
  cases cancelled with
  | true => simp at hput
  | false =>
    cases stat with
    | none => simp at hput
    | some info =>
      cases hdir : info.isDir with
      | true => simp [hdir] at hput
      | false =>
        cases absPath with
        | none => simp [hdir] at hput
        | some ap =>
          cases content with
          | none => simp [hdir] at hput
          | some bytes =>
            cases hstore : store with
            | false => simp [hdir, hstore] at hput
            | true =>
              simp only [hdir, hstore] at hput
              simp at hput
              subst hput
              refine ⟨rfl, rfl, rfl, ?_, fun hnn => formatIntHex_digits _ hnn⟩
              rw [ProcessFile.eq_def]
              cases swarmAttached with
              | false =>
                refine Or.inl ?_
                simp [hdir, hstore]
              | true =>
                refine Or.inr ?_
                simp [hdir, hstore]

/-- C4 witness: the identity statement at a concrete small file with
the abstract primitives instantiated. -/
theorem c4_witness :
    FileMetadata.IDString ⟨"u-h1|/a/b|2020-01-01T00:00:00Z|3e8|ffff",
          "h1|/a/b|2020-01-01T00:00:00Z|3e8|ffff", "h1", "/a/b", 1000,
          "2020-01-01T00:00:00Z", "ffff", []⟩ =
        buildIdString "h1" "/a/b" "2020-01-01T00:00:00Z" 1000 "ffff" ∧
      FileMetadata.ID ⟨"u-h1|/a/b|2020-01-01T00:00:00Z|3e8|ffff",
          "h1|/a/b|2020-01-01T00:00:00Z|3e8|ffff", "h1", "/a/b", 1000,
          "2020-01-01T00:00:00Z", "ffff", []⟩ =
        (fun s => "u-" ++ s) "h1|/a/b|2020-01-01T00:00:00Z|3e8|ffff" ∧
      ("h1" : String) = "h1" ∧
      ((ProcessFile (fun _ => "ffff") (fun s => "u-" ++ s) "h1" .other [] false
          (some ⟨1000, "2020-01-01T00:00:00Z", false⟩) (some (gs "/a/b"))
          (some [65]) true true).broadcasted = none ∨
        (ProcessFile (fun _ => "ffff") (fun s => "u-" ++ s) "h1" .other [] false
          (some ⟨1000, "2020-01-01T00:00:00Z", false⟩) (some (gs "/a/b"))
          (some [65]) true true).broadcasted =
          some ⟨"u-h1|/a/b|2020-01-01T00:00:00Z|3e8|ffff",
            "h1|/a/b|2020-01-01T00:00:00Z|3e8|ffff", "h1", "/a/b", 1000,
            "2020-01-01T00:00:00Z", "ffff", []⟩) ∧
      (0 ≤ (1000 : Int) →
        ∀ c ∈ (formatIntHex 1000).data, c ∈ hexDigits) := by
  have h := c4_identity (fun _ => "ffff") (fun s => "u-" ++ s) "h1" .other []
    false (some ⟨1000, "2020-01-01T00:00:00Z", false⟩) (some (gs "/a/b"))
    (some [65]) true true
    ⟨"u-h1|/a/b|2020-01-01T00:00:00Z|3e8|ffff",
      "h1|/a/b|2020-01-01T00:00:00Z|3e8|ffff", "h1", "/a/b", 1000,
      "2020-01-01T00:00:00Z", "ffff", []⟩ rfl
  exact ⟨h.1, h.2.1, h.2.2.1, h.2.2.2.1, h.2.2.2.2⟩

/-- C10: when the stat of a path succeeds and reports a directory (and
the context was not cancelled, which the code checks first), ProcessFile
returns an empty digest and no error, attempts no fingerprinting,
stores no record and queues no broadcast, whatever the store flag. -/
theorem c10_directory_noop (hash : List Nat → String) (uuid5url : String → String)
    (hostID : String) (goos : GOOS) (table : List PartitionStat)
    (info : FileStat) (absPath : Option GoStr) (content : Option (List Nat))
    (swarmAttached : Bool) (store : Bool) (hdir : info.isDir = true) :
    ProcessFile hash uuid5url hostID goos table false (some info) absPath
        content swarmAttached store =
      ⟨.ok "", false, none, none⟩ := by
  rw [ProcessFile.eq_def]
  simp [hdir]

/-- C10 witness: a directory stat with the store flag set produces the
empty digest and no effects. -/
theorem c10_witness :
    ProcessFile (fun _ => "d") (fun s => s) "h1" .other [] false
        (some ⟨4096, "2020-01-01T00:00:00Z", true⟩) (some (gs "/a"))
        (some [1, 2]) true true =
      ⟨.ok "", false, none, none⟩ :=
  c10_directory_noop (fun _ => "d") (fun s => s) "h1" .other []
    ⟨4096, "2020-01-01T00:00:00Z", true⟩ (some (gs "/a")) (some [1, 2])
    true true rfl

end DreamFS
